import Mathlib

/-!
Verification of the promotional-parents extractor of the civilbuddy
repository.

The repository has two near-identical extractor variants:

* `extract_promotional_from_html` in `scrape_specs.py` (the "page" variant):
  strips HTML tags, then isolates the text between `PROMOTIONAL` and the first
  terminator of `NECESSARY SPECIAL | SUFFOLK COUNTY | REVISION DATE | R\s?\d |
  Competitive`, finds introducer phrases `\b(as\s+an?|as\s+a\(n\))\s*:?\s*`,
  splits each candidate clause at the first period boundary, splits items on
  `,|\bor\b|;`, normalizes each item
  (`item.strip().replace('\n', ' ')`, a leading `"n "`-artifact strip guarded
  by `clean[2].isupper()`, `re.sub(r'[;,]$', '', clean).strip()`), and accepts
  an item iff it is nonempty, longer than 3 characters and its uppercase form
  contains none of `SUFFOLK, THREE, TWO`.

* `extract_spec_info` in `scripts/extract_specs.py` (the "doc" variant): same
  pipeline on a document's paragraph text, with two differences: the
  terminator alternation additionally ends with `Full Performance`, the
  normalization does not replace newlines (`clean = item.strip()` only), and
  the denylist is `SUFFOLK, THREE, TWO, ONE, YEAR`.

Strings are modelled as `List Char`; the ASCII fragment of Python's character
classes is used (`str.strip` whitespace, `\s`, `\d`, `\b` word characters,
`str.upper`, `str.isupper`), which covers all inputs considered here.
Fallible code (the `clean[2]` index, which raises `IndexError` in Python when
out of range) is modelled with `Option`: `none` is an uncaught exception.
-/

namespace CivilBuddy

/-- ASCII whitespace as recognized by Python's `str.strip` and `\s`:
space, tab, newline, carriage return, vertical tab, form feed. -/
def isPySpace (c : Char) : Bool :=
  c = ' ' || c = '\t' || c = '\n' || c = '\r' || c = '\x0b' || c = '\x0c'

/-- ASCII decimal digit, Python's `\d` on the inputs considered. -/
def isPyDigit (c : Char) : Bool := '0' ≤ c && c ≤ '9'

/-- Python's `\w` (word character) on ASCII: letter, digit or underscore;
used for the `\b` word-boundary tests. -/
def isWordChar (c : Char) : Bool :=
  ('a' ≤ c && c ≤ 'z') || ('A' ≤ c && c ≤ 'Z') || isPyDigit c || c = '_'

/-- Python's `str.isupper` on a single ASCII character. -/
def isUpperA (c : Char) : Bool := 'A' ≤ c && c ≤ 'Z'

/-- Case-insensitive character comparison, as under `re.IGNORECASE`. -/
def ciEq (a b : Char) : Bool := a.toLower == b.toLower

/-- Python's `str.upper` (ASCII). -/
def upperList (s : List Char) : List Char := s.map Char.toUpper

/-- `pat` matches case-insensitively at the start of `s`. -/
def ciStarts : List Char → List Char → Bool
  | [], _ => true
  | _ :: _, [] => false
  | p :: ps, c :: cs => ciEq p c && ciStarts ps cs

/-- `pat` matches literally (case-sensitively) at the start of `s`,
Python's `str.startswith`. -/
def litStarts : List Char → List Char → Bool
  | [], _ => true
  | _ :: _, [] => false
  | p :: ps, c :: cs => (p == c) && litStarts ps cs

/-- Python's substring test `pat in s`. -/
def isSubLit (pat : List Char) : List Char → Bool
  | [] => litStarts pat []
  | c :: cs => litStarts pat (c :: cs) || isSubLit pat cs

/-- Whether `s` contains a newline character (as a boolean). -/
def hasNl (s : List Char) : Bool := s.any (fun c => c = '\n')

/-- Remove trailing whitespace, the right half of Python's `str.strip`. -/
def stripRight (s : List Char) : List Char :=
  (s.reverse.dropWhile isPySpace).reverse

/-- Python's `str.strip()`: remove leading and trailing whitespace. -/
def pyStrip (s : List Char) : List Char :=
  stripRight (s.dropWhile isPySpace)

/-- Python's `str.replace('\n', ' ')`. -/
def replaceNl (s : List Char) : List Char :=
  s.map (fun c => if c = '\n' then ' ' else c)

/-- Split `l` at the first suffix satisfying `q`: returns the consumed
part and that suffix.  This is the scan a lazy `(.*?)` followed by an
alternation performs: the match ends at the leftmost position where one
of the alternatives matches. -/
def splitAtFirst (q : List Char → Bool) : List Char → Option (List Char × List Char)
  | [] => if q [] then some ([], []) else none
  | c :: cs =>
    if q (c :: cs) then some ([], c :: cs)
    else
      match splitAtFirst q cs with
      | some (a, b) => some (c :: a, b)
      | none => none

/-- The revision-code terminator `R\s?\d` (case-insensitive): `R`,
optionally one whitespace, then a digit. -/
def rTermAt : List Char → Bool
  | r :: d :: rest =>
    ciEq r 'r' &&
      (isPyDigit d ||
        (isPySpace d && (match rest with | e :: _ => isPyDigit e | [] => false)))
  | _ => false

/-- The `PROMOTIONAL` section header. -/
def promoLit : List Char := "PROMOTIONAL".data

/-- Terminator alternation of the page variant
(`scrape_specs.py`, line 21):
`NECESSARY SPECIAL|SUFFOLK COUNTY|REVISION DATE|R\s?\d|Competitive`,
tested at the start of a suffix `s`. -/
def termAtPage (s : List Char) : Bool :=
  ciStarts "NECESSARY SPECIAL".data s ||
  ciStarts "SUFFOLK COUNTY".data s ||
  ciStarts "REVISION DATE".data s ||
  rTermAt s ||
  ciStarts "Competitive".data s

/-- Terminator alternation of the doc variant
(`scripts/extract_specs.py`, line 137): the page alternation followed by
`Full Performance`. -/
def termAtDoc (s : List Char) : Bool :=
  termAtPage s || ciStarts "Full Performance".data s

/-- The suffix of `text` that follows the first (case-insensitive)
occurrence of `PROMOTIONAL`; `none` when the token does not occur.
`re.search` matches at the leftmost possible position, so the first
occurrence is the relevant one. -/
def afterPromo (text : List Char) : Option (List Char) :=
  match splitAtFirst (fun s => ciStarts promoLit s) text with
  | none => none
  | some (_, s) => some (s.drop promoLit.length)

/-- The promotional section: group 1 of
`re.search(r'PROMOTIONAL(.*?)(?:TERMINATORS)', text, re.IGNORECASE | re.DOTALL)`
for the terminator test `q`.  With the lazy `(.*?)` under `re.DOTALL` the
group extends from the end of `PROMOTIONAL` to the leftmost later position
where some terminator alternative matches; if no occurrence of
`PROMOTIONAL` is followed by a terminator the search fails (a terminator
after a later occurrence of `PROMOTIONAL` is also after the first one, so
only the first occurrence needs to be scanned). -/
def promoSection (q : List Char → Bool) (text : List Char) : Option (List Char) :=
  match afterPromo text with
  | none => none
  | some rest =>
    match splitAtFirst q rest with
    | some (sec, _) => some sec
    | none => none

/-! ## The introducer finder

`re.finditer(r'\b(as\s+an?|as\s+a\(n\))\s*:?\s*', promo_part, re.IGNORECASE)`.
Both alternatives start with `as`, one or more whitespace and `a`; the first
alternative then takes an optional `n` and, since the trailing `\s*:?\s*` is
all-optional, it succeeds whenever `as\s+a` has matched, so the second
alternative (whose shared prefix `as\s+a` would already have failed) can
never be the one selected; it is therefore not a separate branch below.
The greedy `\s+` consumes the maximal whitespace run (shorter runs would
leave a whitespace character where `a` is required, so backtracking cannot
produce a different match). -/

/-- `\s*`: drop the maximal whitespace run. -/
def dropWs (s : List Char) : List Char := s.dropWhile isPySpace

/-- `\s+`: at least one whitespace, then the maximal run. -/
def ws1 : List Char → Option (List Char)
  | c :: cs => if isPySpace c then some (dropWs cs) else none
  | [] => none

/-- `n?` (case-insensitive, greedy). -/
def optN : List Char → List Char
  | c :: cs => if ciEq c 'n' then cs else c :: cs
  | [] => []

/-- `:?` (greedy). -/
def optColon : List Char → List Char
  | c :: cs => if c = ':' then cs else c :: cs
  | [] => []

/-- The trailing `\s*:?\s*` of the introducer pattern. -/
def introTail (s : List Char) : List Char := dropWs (optColon (dropWs s))

/-- Match the introducer pattern (without its leading `\b`) at the start of
`s`; returns the remaining suffix after the match, i.e. the suffix at
`m.end()`. -/
def introCore (s : List Char) : Option (List Char) :=
  match s with
  | a :: b :: rest =>
    if ciEq a 'a' && ciEq b 's' then
      match ws1 rest with
      | some t =>
        match t with
        | c :: u => if ciEq c 'a' then some (introTail (optN u)) else none
        | [] => none
      | none => none
    else none
  | _ => none

theorem length_dropWs_le (s : List Char) : (dropWs s).length ≤ s.length := by
  induction s with
  | nil => simp [dropWs]
  | cons c cs ih =>
    simp only [dropWs, List.dropWhile_cons] at ih ⊢
    cases h : isPySpace c
    · simp [h]
    · simp only [h, if_true]
      exact Nat.le_trans ih (by simp)

theorem length_optN_le (s : List Char) : (optN s).length ≤ s.length := by
  cases s with
  | nil => simp [optN]
  | cons c cs => simp only [optN]; split <;> simp

theorem length_optColon_le (s : List Char) : (optColon s).length ≤ s.length := by
  cases s with
  | nil => simp [optColon]
  | cons c cs => simp only [optColon]; split <;> simp

theorem length_introTail_le (s : List Char) : (introTail s).length ≤ s.length := by
  unfold introTail
  calc (dropWs (optColon (dropWs s))).length
      ≤ (optColon (dropWs s)).length := length_dropWs_le _
    _ ≤ (dropWs s).length := length_optColon_le _
    _ ≤ s.length := length_dropWs_le _

/-- An introducer match consumes at least one character (in fact at least
four), so the remaining suffix is strictly shorter. -/
theorem length_introCore_lt {s r : List Char} (h : introCore s = some r) :
    r.length < s.length := by
  unfold introCore at h
  match s, h with
  | a :: b :: rest, h =>
    simp only at h
    split at h
    · rename_i hab
      cases hws : ws1 rest with
      | none => rw [hws] at h; exact absurd h (by simp)
      | some t =>
        rw [hws] at h
        have ht : t.length ≤ rest.length := by
          cases rest with
          | nil => simp [ws1] at hws
          | cons d ds =>
            simp only [ws1] at hws
            split at hws
            · cases hws
              have := length_dropWs_le ds
              simp; omega
            · cases hws
        cases t with
        | nil => exact absurd h (by simp)
        | cons c u =>
          simp only at h
          split at h
          · cases h
            have h1 := length_introTail_le (optN u)
            have h2 := length_optN_le u
            simp at ht ⊢
            omega
          · cases h
    · cases h

/-- Whether the character just before the suffix `r` of `s` is a word
character; `r` is assumed to arise from `s` by consuming
`s.length - r.length` characters.  This supplies the look-behind for the
`\b` at a continuation position of `finditer`. -/
def wordBefore (s r : List Char) : Bool :=
  match (s.take (s.length - r.length)).getLast? with
  | some c => isWordChar c
  | none => false

/-- Fuelled scan of `finditer` for the introducer pattern: at each
position where the preceding character is not a word character (the `\b`:
the pattern continues with the word character `a`, so the boundary holds
exactly when the previous character is not a word character), try the
pattern; on a match, emit the suffix at `m.end()` and continue scanning
from there (matches are non-overlapping), otherwise advance one
character.  A fuel of `s.length` suffices since every step consumes at
least one character. -/
def findIntrosF : Nat → Bool → List Char → List (List Char)
  | 0, _, _ => []
  | _, _, [] => []
  | fuel + 1, prevW, c :: cs =>
    if prevW then findIntrosF fuel (isWordChar c) cs
    else
      match introCore (c :: cs) with
      | some r => r :: findIntrosF fuel (wordBefore (c :: cs) r) r
      | none => findIntrosF fuel (isWordChar c) cs

/-- All `m.end()` suffixes of the introducer matches in `s`, in order.
Scanning starts at position 0, where the look-behind is the start of the
string (not a word character). -/
def findIntros (s : List Char) : List (List Char) :=
  findIntrosF s.length false s

/-! ## Candidate chunking, item splitting and normalization -/

/-- `re.split(r'\.\s|\.$', after_text)[0]`: the prefix of `after_text` up
to the first period that is followed by whitespace or ends the string.
(`$` without `re.MULTILINE` also matches just before a terminal newline,
but a newline is whitespace, so that case is already covered by the
first alternative.) -/
def chunkOf : List Char → List Char
  | [] => []
  | c :: rest =>
    if c = '.' && (match rest with | d :: _ => isPySpace d | [] => true) then []
    else c :: chunkOf rest

/-- The `\bor\b` alternative of the item split (case-sensitive: the
split pattern carries no `re.IGNORECASE`): matches when the look-behind
`prevW` is not a word character, the next two characters are `o` `r`,
and the character after them (if any) is not a word character.  Returns
the suffix after `or`. -/
def orMatch (prevW : Bool) (c : Char) (cs : List Char) : Option (List Char) :=
  if prevW then none
  else
    match cs with
    | r :: rest =>
      if c = 'o' && r = 'r' &&
          (match rest with | d :: _ => !isWordChar d | [] => true) then
        some rest
      else none
    | [] => none

theorem orMatch_some_length {prevW : Bool} {c : Char} {cs rest : List Char}
    (h : orMatch prevW c cs = some rest) : rest.length < cs.length := by
  cases cs with
  | nil => simp [orMatch] at h
  | cons r rest0 =>
    simp only [orMatch] at h
    split at h
    · cases h
    · split at h
      · injection h with h
        subst h
        simp
      · cases h

/-- Fuelled worker for `re.split(r',|\bor\b|;', chunk)`: `prevW` is
whether the previous character is a word character (the look-behind of
`\b`), `cur` is the current piece reversed.  At each position the
alternatives `,`, `\bor\b`, `;` are mutually exclusive (they begin with
distinct characters), and after a separator the scan resumes with the
piece accumulator emptied.  A fuel of the list's length suffices since
every step consumes at least one character. -/
def splitItemsAuxF : Nat → Bool → List Char → List Char → List (List Char)
  | 0, _, cur, _ => [cur.reverse]
  | _, _, cur, [] => [cur.reverse]
  | fuel + 1, prevW, cur, c :: cs =>
    if c = ',' || c = ';' then cur.reverse :: splitItemsAuxF fuel false [] cs
    else
      match orMatch prevW c cs with
      | some rest => cur.reverse :: splitItemsAuxF fuel true [] rest
      | none => splitItemsAuxF fuel (isWordChar c) (c :: cur) cs

/-- `re.split(r',|\bor\b|;', chunk)`: the pieces of `chunk` between the
separator matches. -/
def splitItems (chunk : List Char) : List (List Char) :=
  splitItemsAuxF chunk.length false [] chunk

/-- The leading-artifact strip
`if clean.startswith('n ') and clean[2].isupper(): clean = clean[2:]`.
When `clean` is exactly `"n "` the guard's index access `clean[2]`
raises `IndexError`, modelled as `none`. -/
def dropArtifact : List Char → Option (List Char)
  | a :: b :: rest =>
    if a = 'n' && b = ' ' then
      match rest with
      | [] => none
      | c :: cs => some (if isUpperA c then c :: cs else a :: b :: c :: cs)
    else some (a :: b :: rest)
  | s => some s

/-- `re.sub(r'[;,]$', '', clean)`: remove one semicolon or comma at the
end of the string (or just before a terminal newline, where `$` also
matches). -/
def subTrailing (s : List Char) : List Char :=
  match s.reverse with
  | c :: rest =>
    if c = ';' || c = ',' then rest.reverse
    else if c = '\n' then
      match rest with
      | d :: rest2 =>
        if d = ';' || d = ',' then ('\n' :: rest2).reverse else s
      | [] => s
    else s
  | [] => s

/-- The per-item normalizer.  Page variant (`nl = true`):
`clean = item.strip().replace('\n', ' ')`; doc variant (`nl = false`):
`clean = item.strip()`.  Then the `"n "`-artifact strip, then
`clean = re.sub(r'[;,]$', '', clean).strip()`.  `none` models the
`IndexError` of the artifact guard. -/
def normItem (nl : Bool) (item : List Char) : Option (List Char) :=
  match dropArtifact (if nl then replaceNl (pyStrip item) else pyStrip item) with
  | none => none
  | some c2 => some (pyStrip (subTrailing c2))

/-- The page variant's denylist (`scrape_specs.py`, line 37). -/
def denyPage : List (List Char) := ["SUFFOLK".data, "THREE".data, "TWO".data]

/-- The doc variant's denylist (`scripts/extract_specs.py`, line 157). -/
def denyDoc : List (List Char) :=
  ["SUFFOLK".data, "THREE".data, "TWO".data, "ONE".data, "YEAR".data]

/-- The acceptance test
`if clean and len(clean) > 3 and not any(x in clean.upper() for x in deny)`. -/
def acceptWith (deny : List (List Char)) (clean : List Char) : Bool :=
  !clean.isEmpty && decide (3 < clean.length) &&
    !(deny.any (fun tok => isSubLit tok (upperList clean)))

/-- The inner `for item in items` loop: normalize each item in order and
keep those passing the acceptance test; `none` propagates the
`IndexError` of the artifact guard (which would abort the Python loop). -/
def processItems (nl : Bool) (deny : List (List Char)) :
    List (List Char) → Option (List (List Char))
  | [] => some []
  | item :: rest =>
    match normItem nl item with
    | none => none
    | some clean =>
      match processItems nl deny rest with
      | none => none
      | some ps => some (if acceptWith deny clean then clean :: ps else ps)

/-- The `.upper().startswith(...)` rejection pre-filter of a candidate. -/
def selfRefReject (after : List Char) : Bool :=
  litStarts "SUFFOLK COUNTY".data (upperList after) ||
  litStarts "NON-COUNTY".data (upperList after)

/-- The outer `for m in matches` loop: for each introducer match the
candidate text `after_text = promo_part[m.end():].strip()` is discarded
when it starts (case-insensitively, via `.upper().startswith`) with
`SUFFOLK COUNTY` or `NON-COUNTY`; otherwise its chunk up to the first
period boundary is split into items and each item is normalized and
filtered.  Accepted items of all candidates are appended in order. -/
def processCandidates (nl : Bool) (deny : List (List Char)) :
    List (List Char) → Option (List (List Char))
  | [] => some []
  | cand :: rest =>
    let after := pyStrip cand
    if selfRefReject after then processCandidates nl deny rest
    else
      match processItems nl deny (splitItems (chunkOf after)) with
      | none => none
      | some xs =>
        match processCandidates nl deny rest with
        | none => none
        | some ys => some (xs ++ ys)

/-- The extraction core shared by both variants, producing the `parents`
accumulator in append order (the Python code finally returns
`list(set(parents))`, which only forgets order and multiplicity; see
`runOutput`). -/
def extractParents (nl : Bool) (q : List Char → Bool) (deny : List (List Char))
    (text : List Char) : Option (List (List Char)) :=
  match promoSection q text with
  | none => some []
  | some sec => processCandidates nl deny (findIntros sec)

/-- Page-variant extraction core on tag-stripped text
(`extract_promotional_from_html` after its `re.sub('<[^<]+?>', '', ...)`
line). -/
def extractPromotionalText (text : List Char) : Option (List (List Char)) :=
  extractParents true termAtPage denyPage text

/-- Doc-variant extraction of the `parents` field of `extract_spec_info`,
as a function of the document's joined paragraph text. -/
def extractSpecParents (text : List Char) : Option (List (List Char)) :=
  extractParents false termAtDoc denyDoc text

/-- Find the closing `>` of a tag: content characters are anything but
`<`. -/
def tagClose : List Char → Option (List Char)
  | [] => none
  | c :: rest =>
    if c = '>' then some rest
    else if c = '<' then none
    else tagClose rest

/-- Match `<[^<]+?>` at the head: after an opening `<` and a first
non-`<` content character, the lazy quantifier ends the tag at the first
`>`, failing if a `<` intervenes.  Returns the suffix after the tag. -/
def tagAt : List Char → Option (List Char)
  | '<' :: c :: rest => if c = '<' then none else tagClose rest
  | _ => none

/-- Fuelled `re.sub('<[^<]+?>', '', html_content)`: remove every tag
match, scanning left to right; a fuel of `s.length` suffices since every
step consumes at least one character. -/
def stripTagsF : Nat → List Char → List Char
  | 0, s => s
  | fuel + 1, s =>
    match s with
    | [] => []
    | c :: cs =>
      match tagAt (c :: cs) with
      | some r => stripTagsF fuel r
      | none => c :: stripTagsF fuel cs

/-- `re.sub('<[^<]+?>', '', html_content)`. -/
def stripTags (s : List Char) : List Char := stripTagsF s.length s

/-- The full page variant `extract_promotional_from_html`: strip HTML
tags, then run the extraction core. -/
def extract_promotional_from_html (html : List Char) : Option (List (List Char)) :=
  extractPromotionalText (stripTags html)

/-- The observable result of one run of `list(set(parents))` on a
variant's extraction core `f`: Python's `set` iteration order is
unspecified (hash randomization), so a run's output is any
duplicate-free list with the same membership as the `parents`
accumulator. -/
def runOutput (f : List Char → Option (List (List Char)))
    (text : List Char) (out : List (List Char)) : Prop :=
  ∃ ps, f text = some ps ∧ out.Nodup ∧ ∀ p, p ∈ out ↔ p ∈ ps

/-! ## Properties of the first-occurrence scan -/

theorem splitAtFirst_some {q : List Char → Bool} :
    ∀ {l a b : List Char}, splitAtFirst q l = some (a, b) →
      a ++ b = l ∧ q b = true ∧
        ∀ a' b', a' ++ b' = l → a'.length < a.length → q b' = false := by
  intro l
  induction l with
  | nil =>
    intro a b h
    unfold splitAtFirst at h
    split at h
    · rename_i hq
      cases h
      exact ⟨rfl, hq, fun a' b' _ hlt => absurd hlt (by simp)⟩
    · cases h
  | cons c cs ih =>
    intro a b h
    unfold splitAtFirst at h
    split at h
    · rename_i hq
      cases h
      exact ⟨rfl, hq, fun a' b' _ hlt => absurd hlt (by simp)⟩
    · rename_i hq
      cases hrec : splitAtFirst q cs with
      | none => rw [hrec] at h; cases h
      | some ab =>
        obtain ⟨a0, b0⟩ := ab
        rw [hrec] at h
        cases h
        obtain ⟨hab, hqb, hmin⟩ := ih hrec
        refine ⟨by simp [hab], hqb, ?_⟩
        intro a' b' heq hlt
        cases a' with
        | nil =>
          simp at heq
          rw [heq]
          exact Bool.not_eq_true _ ▸ (by simpa using hq)
        | cons d a0' =>
          simp at heq
          obtain ⟨hd, heq2⟩ := heq
          simp at hlt
          exact hmin a0' b' heq2 (by omega)

theorem splitAtFirst_eq_some {q : List Char → Bool} :
    ∀ {a l b : List Char}, a ++ b = l → q b = true →
      (∀ a' b', a' ++ b' = l → a'.length < a.length → q b' = false) →
      splitAtFirst q l = some (a, b) := by
  intro a
  induction a with
  | nil =>
    intro l b hab hq _
    simp at hab
    subst hab
    cases b with
    | nil => simp [splitAtFirst, hq]
    | cons c cs => simp [splitAtFirst, hq]
  | cons c a0 ih =>
    intro l b hab hq hmin
    subst hab
    have hqc : q (c :: (a0 ++ b)) = false := hmin [] (c :: (a0 ++ b)) rfl (by simp)
    simp only [List.cons_append, splitAtFirst, List.append_eq, hqc]
    rw [ih rfl hq (fun a' b' heq hlt => hmin (c :: a') b' (by simp [heq]) (by simp; omega))]
    simp

theorem splitAtFirst_eq_none {q : List Char → Bool} :
    ∀ {l : List Char}, (∀ a b, a ++ b = l → q b = false) →
      splitAtFirst q l = none := by
  intro l
  induction l with
  | nil =>
    intro h
    simp [splitAtFirst, h [] [] rfl]
  | cons c cs ih =>
    intro h
    have hq : q (c :: cs) = false := h [] (c :: cs) rfl
    simp only [splitAtFirst, hq]
    rw [ih (fun a b hab => h (c :: a) b (by simp [hab]))]
    simp

/-! ## Properties of the strip and normalization helpers -/

theorem dropWhile_head_false {p : Char → Bool} :
    ∀ {l c t}, List.dropWhile p l = c :: t → p c = false := by
  intro l
  induction l with
  | nil => intro c t h; simp [List.dropWhile] at h
  | cons a as ih =>
    intro c t h
    rw [List.dropWhile_cons] at h
    split at h
    · exact ih h
    · rename_i hpa
      cases h
      exact Bool.not_eq_true _ ▸ (by simpa using hpa)

theorem dropWhile_of_head_false {p : Char → Bool} {c : Char} {t : List Char}
    (h : p c = false) : List.dropWhile p (c :: t) = c :: t := by
  rw [List.dropWhile_cons, h]
  simp

theorem mem_of_mem_dropWhile {p : Char → Bool} {l : List Char} {a : Char}
    (h : a ∈ List.dropWhile p l) : a ∈ l := by
  have := List.takeWhile_append_dropWhile p l
  rw [← this]
  exact List.mem_append_right _ h

/-- The right strip removes a whitespace-only tail. -/
theorem stripRight_append (s : List Char) :
    ∃ u, (∀ a ∈ u, isPySpace a = true) ∧ stripRight s ++ u = s := by
  refine ⟨(s.reverse.takeWhile isPySpace).reverse, ?_, ?_⟩
  · intro a ha
    exact List.mem_takeWhile_imp (List.mem_reverse.mp ha)
  · have h := List.takeWhile_append_dropWhile isPySpace s.reverse
    have h2 := congrArg List.reverse h
    rw [List.reverse_append, List.reverse_reverse] at h2
    simpa [stripRight] using h2

theorem mem_stripRight {s : List Char} {a : Char} (h : a ∈ stripRight s) : a ∈ s := by
  obtain ⟨u, _, hu⟩ := stripRight_append s
  rw [← hu]
  exact List.mem_append_left _ h

theorem mem_pyStrip {s : List Char} {a : Char} (h : a ∈ pyStrip s) : a ∈ s :=
  mem_of_mem_dropWhile (mem_stripRight h)

/-- The reversed strip result is a `dropWhile` of the reversed input, so
its head (the last character of the strip) is not whitespace. -/
theorem pyStrip_reverse (s : List Char) :
    (pyStrip s).reverse = (s.dropWhile isPySpace).reverse.dropWhile isPySpace := by
  simp [pyStrip, stripRight]

theorem pyStrip_last_false {s : List Char} {c : Char} {t : List Char}
    (h : (pyStrip s).reverse = c :: t) : isPySpace c = false :=
  dropWhile_head_false (by rw [← pyStrip_reverse s]; exact h)

theorem pyStrip_head_false {s : List Char} {c : Char} {t : List Char}
    (h : pyStrip s = c :: t) : isPySpace c = false := by
  obtain ⟨u, _, hu⟩ := stripRight_append (s.dropWhile isPySpace)
  have hs : pyStrip s = stripRight (s.dropWhile isPySpace) := rfl
  rw [hs] at h
  rw [h] at hu
  have hdw : List.dropWhile isPySpace s = c :: (t ++ u) := by
    rw [← hu]
    simp
  exact dropWhile_head_false hdw

/-- A list whose head is not whitespace is unchanged by the left strip,
and one whose last character is not whitespace is unchanged by the right
strip; together: stripping a stripped list does nothing. -/
theorem pyStrip_idem (s : List Char) : pyStrip (pyStrip s) = pyStrip s := by
  have hleft : (pyStrip s).dropWhile isPySpace = pyStrip s := by
    cases h : pyStrip s with
    | nil => simp
    | cons c t => exact dropWhile_of_head_false (pyStrip_head_false h)
  show stripRight ((pyStrip s).dropWhile isPySpace) = pyStrip s
  rw [hleft]
  cases h : (pyStrip s).reverse with
  | nil =>
    have : pyStrip s = [] := by simpa using congrArg List.reverse h
    rw [this]
    rfl
  | cons c t =>
    have hc := pyStrip_last_false h
    unfold stripRight
    rw [h, dropWhile_of_head_false hc, ← h]
    simp

/-- The only input on which the artifact strip raises `IndexError` is the
two-character string `"n "` itself. -/
theorem dropArtifact_eq_none {s : List Char} (h : dropArtifact s = none) :
    s = ['n', ' '] := by
  unfold dropArtifact at h
  match s, h with
  | [], h => cases h
  | [a], h => cases h
  | a :: b :: rest, h =>
    simp only at h
    split at h
    · rename_i hab
      simp at hab
      cases rest with
      | nil => simp [hab]
      | cons c cs => cases h
    · cases h

/-- The string fed to the artifact strip, `item.strip()` (optionally with
newlines replaced by spaces), never ends in whitespace, so it is never
the crashing string `"n "`. -/
theorem stage1_ne_n_space (nl : Bool) (item : List Char) :
    (if nl then replaceNl (pyStrip item) else pyStrip item) ≠ ['n', ' '] := by
  cases nl with
  | false =>
    intro h
    simp only [if_neg Bool.false_ne_true] at h
    have hr : (pyStrip item).reverse = [' ', 'n'] := by rw [h]; rfl
    have := pyStrip_last_false hr
    simp [isPySpace] at this
  | true =>
    intro h
    have h2 : replaceNl (pyStrip item) = ['n', ' '] := by simpa using h
    have hr : (replaceNl (pyStrip item)).reverse = [' ', 'n'] := by rw [h2]; rfl
    rw [show (replaceNl (pyStrip item)).reverse
          = (pyStrip item).reverse.map (fun c => if c = '\n' then ' ' else c) by
        simp [replaceNl]] at hr
    cases hx : (pyStrip item).reverse with
    | nil => rw [hx] at hr; cases hr
    | cons d t =>
      rw [hx] at hr
      simp only [List.map_cons, List.cons.injEq] at hr
      obtain ⟨hd, _⟩ := hr
      have hlast := pyStrip_last_false hx
      by_cases hdn : d = '\n'
      · rw [hdn] at hlast; simp [isPySpace] at hlast
      · rw [if_neg hdn] at hd
        rw [hd] at hlast
        simp [isPySpace] at hlast

theorem mem_replaceNl_ne_nl {s : List Char} (h : ('\n' : Char) ∈ replaceNl s) : False := by
  unfold replaceNl at h
  obtain ⟨x, _, hx⟩ := List.mem_map.mp h
  by_cases hxe : x = '\n'
  · rw [if_pos hxe] at hx
    cases hx
  · rw [if_neg hxe] at hx
    exact hxe hx

theorem mem_subTrailing {s : List Char} {a : Char} (h : a ∈ subTrailing s) : a ∈ s := by
  cases hr : s.reverse with
  | nil => simp only [subTrailing, hr] at h; exact h
  | cons c rest =>
    simp only [subTrailing, hr] at h
    by_cases h1 : (c = ';' || c = ',') = true
    · rw [if_pos h1] at h
      have h2 : a ∈ c :: rest := List.mem_cons_of_mem _ (List.mem_reverse.mp h)
      rw [← hr] at h2
      exact List.mem_reverse.mp h2
    · rw [if_neg h1] at h
      by_cases h2 : c = '\n'
      · rw [if_pos h2] at h
        cases rest with
        | nil => simpa using h
        | cons d rest2 =>
          simp only at h
          by_cases h3 : (d = ';' || d = ',') = true
          · rw [if_pos h3] at h
            have h4 : a ∈ '\n' :: rest2 := List.mem_reverse.mp h
            have h5 : a ∈ c :: d :: rest2 := by
              rcases List.mem_cons.mp h4 with h6 | h6
              · rw [h6, ← h2]; exact List.mem_cons_self _ _
              · exact List.mem_cons_of_mem _ (List.mem_cons_of_mem _ h6)
            rw [← hr] at h5
            exact List.mem_reverse.mp h5
          · rw [if_neg h3] at h; exact h
      · rw [if_neg h2] at h; exact h

theorem mem_dropArtifact {s t : List Char} {a : Char}
    (hd : dropArtifact s = some t) (h : a ∈ t) : a ∈ s := by
  unfold dropArtifact at hd
  match s, hd with
  | [], hd => cases hd; exact h
  | [b], hd => cases hd; exact h
  | b :: b2 :: rest, hd =>
    simp only at hd
    split at hd
    · cases rest with
      | nil => cases hd
      | cons c cs =>
        simp only at hd
        cases hd
        split at h
        · exact List.mem_cons_of_mem _ (List.mem_cons_of_mem _ h)
        · exact h
    · cases hd
      exact h

/-- The characters of a normalized item all come from `item.strip()`
(after the optional newline replacement). -/
theorem normItem_mem {nl : Bool} {item c : List Char} {a : Char}
    (h : normItem nl item = some c) (ha : a ∈ c) :
    a ∈ (if nl then replaceNl (pyStrip item) else pyStrip item) := by
  unfold normItem at h
  cases hd : dropArtifact (if nl then replaceNl (pyStrip item) else pyStrip item) with
  | none => rw [hd] at h; cases h
  | some c2 =>
    rw [hd] at h
    simp only [Option.some.injEq] at h
    subst h
    exact mem_dropArtifact hd (mem_subTrailing (mem_pyStrip ha))

/-- C10 core: the normalizer is total — `clean[2]` is never out of
range because a stripped string that starts with `"n "` has at least
three characters (it cannot end in a space). -/
theorem normItem_isSome (nl : Bool) (item : List Char) :
    (normItem nl item).isSome = true := by
  unfold normItem
  cases hd : dropArtifact (if nl then replaceNl (pyStrip item) else pyStrip item) with
  | some c2 => simp
  | none => exact absurd (dropArtifact_eq_none hd) (stage1_ne_n_space nl item)

/-- The normalizer's output is strip-fixed. -/
theorem normItem_strip {nl : Bool} {item c : List Char}
    (h : normItem nl item = some c) : pyStrip c = c := by
  unfold normItem at h
  cases hd : dropArtifact (if nl then replaceNl (pyStrip item) else pyStrip item) with
  | none => rw [hd] at h; cases h
  | some c2 =>
    rw [hd] at h
    simp only [Option.some.injEq] at h
    subst h
    exact pyStrip_idem _

/-- In the page variant (`nl = true`) the normalizer's output contains no
newline: every newline was replaced by a space before any further step. -/
theorem normItem_no_nl {item c : List Char}
    (h : normItem true item = some c) : hasNl c = false := by
  rw [hasNl, List.any_eq_false]
  intro a ha
  simp only [decide_eq_true_eq]
  intro hne
  subst hne
  have := normItem_mem h ha
  simp only [if_pos rfl] at this
  exact mem_replaceNl_ne_nl this

/-! ## Provenance of accepted parents -/

/-- Every member of a successful `processItems` result is the
normalization of one of the items and passed the acceptance test. -/
theorem mem_processItems {nl : Bool} {deny : List (List Char)} :
    ∀ {items ps : List (List Char)} {p : List Char},
      processItems nl deny items = some ps → p ∈ ps →
      ∃ item, item ∈ items ∧ normItem nl item = some p ∧ acceptWith deny p = true := by
  intro items
  induction items with
  | nil =>
    intro ps p h hp
    unfold processItems at h
    cases h
    cases hp
  | cons item rest ih =>
    intro ps p h hp
    unfold processItems at h
    cases hn : normItem nl item with
    | none => rw [hn] at h; cases h
    | some clean =>
      rw [hn] at h
      cases hr : processItems nl deny rest with
      | none => rw [hr] at h; cases h
      | some qs =>
        rw [hr] at h
        simp only [Option.some.injEq] at h
        subst h
        by_cases hacc : acceptWith deny clean = true
        · rw [if_pos hacc] at hp
          rcases List.mem_cons.mp hp with h2 | h2
          · exact ⟨item, List.mem_cons_self _ _, h2 ▸ hn, h2 ▸ hacc⟩
          · obtain ⟨i, hi, hni, hai⟩ := ih hr h2
            exact ⟨i, List.mem_cons_of_mem _ hi, hni, hai⟩
        · rw [if_neg hacc] at hp
          obtain ⟨i, hi, hni, hai⟩ := ih hr hp
          exact ⟨i, List.mem_cons_of_mem _ hi, hni, hai⟩

/-- Every member of a successful `processCandidates` result is the
normalization of some item of some candidate and passed the acceptance
test. -/
theorem mem_processCandidates {nl : Bool} {deny : List (List Char)} :
    ∀ {cands ps : List (List Char)} {p : List Char},
      processCandidates nl deny cands = some ps → p ∈ ps →
      ∃ item, normItem nl item = some p ∧ acceptWith deny p = true := by
  intro cands
  induction cands with
  | nil =>
    intro ps p h hp
    unfold processCandidates at h
    cases h
    cases hp
  | cons cand rest ih =>
    intro ps p h hp
    unfold processCandidates at h
    by_cases hrej : selfRefReject (pyStrip cand) = true
    · rw [if_pos hrej] at h
      exact ih h hp
    · rw [if_neg hrej] at h
      cases hx : processItems nl deny (splitItems (chunkOf (pyStrip cand))) with
      | none => rw [hx] at h; cases h
      | some xs =>
        rw [hx] at h
        cases hy : processCandidates nl deny rest with
        | none => rw [hy] at h; cases h
        | some ys =>
          rw [hy] at h
          simp only [Option.some.injEq] at h
          subst h
          rcases List.mem_append.mp hp with h2 | h2
          · obtain ⟨i, _, hni, hai⟩ := mem_processItems hx h2
            exact ⟨i, hni, hai⟩
          · exact ih hy h2

/-- Every member of a successful extraction result is the normalization
of some item and passed the acceptance test. -/
theorem mem_extractParents {nl : Bool} {q : List Char → Bool}
    {deny : List (List Char)} {text : List Char} {ps : List (List Char)}
    {p : List Char}
    (h : extractParents nl q deny text = some ps) (hp : p ∈ ps) :
    ∃ item, normItem nl item = some p ∧ acceptWith deny p = true := by
  unfold extractParents at h
  cases hs : promoSection q text with
  | none =>
    rw [hs] at h
    cases h
    cases hp
  | some sec =>
    rw [hs] at h
    exact mem_processCandidates h hp

/-- Unpacking of a successful acceptance test: nonempty, longer than
three characters, and free of every denylisted token. -/
theorem acceptWith_spec {deny : List (List Char)} {clean : List Char}
    (h : acceptWith deny clean = true) :
    3 < clean.length ∧ ∀ tok ∈ deny, isSubLit tok (upperList clean) = false := by
  unfold acceptWith at h
  simp only [Bool.and_eq_true, Bool.not_eq_true', decide_eq_true_eq] at h
  obtain ⟨⟨_, hlen⟩, hany⟩ := h
  refine ⟨hlen, ?_⟩
  intro tok htok
  have := List.any_eq_false.mp hany tok htok
  simpa using this

/-! ## The normalizer is a stable point of its own passes -/

theorem isUpperA_not_space {z : Char} (h : isUpperA z = true) : isPySpace z = false := by
  by_contra hc
  have h2 : isPySpace z = true := by simpa using hc
  simp only [isPySpace, Bool.or_eq_true, decide_eq_true_eq] at h2
  rcases h2 with ((((h2 | h2) | h2) | h2) | h2) | h2 <;> subst h2 <;>
    exact absurd h (by decide)

theorem pyStrip_nil : pyStrip [] = [] := rfl

theorem subTrailing_nil : subTrailing [] = [] := rfl

/-- The last character of the stage-1 string (`item.strip()`, with
newlines replaced in the page variant) is never whitespace. -/
theorem stage1_last_false {nl : Bool} {item : List Char} {e : Char} {t : List Char}
    (h : (if nl then replaceNl (pyStrip item) else pyStrip item).reverse = e :: t) :
    isPySpace e = false := by
  cases nl with
  | false =>
    simp only [Bool.false_eq_true, if_false] at h
    exact pyStrip_last_false h
  | true =>
    simp only [if_true] at h
    rw [show (replaceNl (pyStrip item)).reverse
          = (pyStrip item).reverse.map (fun c => if c = '\n' then ' ' else c) by
        simp [replaceNl]] at h
    cases hx : (pyStrip item).reverse with
    | nil => rw [hx] at h; cases h
    | cons d t0 =>
      rw [hx] at h
      simp only [List.map_cons, List.cons.injEq] at h
      obtain ⟨hd, _⟩ := h
      have hlast := pyStrip_last_false hx
      by_cases hdn : d = '\n'
      · rw [hdn] at hlast; simp [isPySpace] at hlast
      · rw [if_neg hdn] at hd; subst hd; exact hlast

/-- The first character of the stage-1 string is never whitespace. -/
theorem stage1_head_false {nl : Bool} {item : List Char} {e : Char} {t : List Char}
    (h : (if nl then replaceNl (pyStrip item) else pyStrip item) = e :: t) :
    isPySpace e = false := by
  cases nl with
  | false =>
    simp only [Bool.false_eq_true, if_false] at h
    exact pyStrip_head_false h
  | true =>
    simp only [if_true] at h
    cases hx : pyStrip item with
    | nil => rw [hx] at h; cases h
    | cons d t0 =>
      rw [hx] at h
      simp only [replaceNl, List.map_cons, List.cons.injEq] at h
      obtain ⟨hd, _⟩ := h
      have hhead := pyStrip_head_false hx
      by_cases hdn : d = '\n'
      · rw [hdn] at hhead; simp [isPySpace] at hhead
      · rw [if_neg hdn] at hd; subst hd; exact hhead

/-- The artifact strip is the identity on any string not starting with
the two characters `n`, space. -/
theorem dropArtifact_other {a b : Char} {rest : List Char} (hab : ¬(a = 'n' ∧ b = ' ')) :
    dropArtifact (a :: b :: rest) = some (a :: b :: rest) := by
  have h3 : dropArtifact (a :: b :: rest)
      = (if (decide (a = 'n') && decide (b = ' ')) = true then
           (match rest with
            | [] => none
            | c :: cs =>
              some (if isUpperA c = true then c :: cs else a :: b :: c :: cs))
         else some (a :: b :: rest)) := rfl
  rw [h3, if_neg (by simp only [Bool.and_eq_true, decide_eq_true_eq]; exact hab)]

/-- Case characterization of a successful artifact strip. -/
theorem dropArtifact_some_cases {s t : List Char} (h : dropArtifact s = some t) :
    (t = s ∧ ∀ z zs, s = 'n' :: ' ' :: z :: zs → isUpperA z = false) ∨
    (∃ z zs, s = 'n' :: ' ' :: z :: zs ∧ isUpperA z = true ∧ t = z :: zs) := by
  rcases s with _ | ⟨a, _ | ⟨b, rest⟩⟩
  · have h2 : dropArtifact [] = some [] := rfl
    rw [h2] at h
    refine Or.inl ⟨(Option.some.inj h).symm, ?_⟩
    intro z zs hzz
    cases hzz
  · have h2 : dropArtifact [a] = some [a] := rfl
    rw [h2] at h
    refine Or.inl ⟨(Option.some.inj h).symm, ?_⟩
    intro z zs hzz
    simp at hzz
  · by_cases hab : a = 'n' ∧ b = ' '
    · obtain ⟨ha, hb⟩ := hab
      subst ha
      subst hb
      cases rest with
      | nil =>
        have h2 : dropArtifact ['n', ' '] = none := rfl
        rw [h2] at h
        cases h
      | cons z zs =>
        have h2 : dropArtifact ('n' :: ' ' :: z :: zs)
            = some (if isUpperA z then z :: zs else 'n' :: ' ' :: z :: zs) := rfl
        rw [h2] at h
        by_cases hz : isUpperA z = true
        · rw [if_pos hz] at h
          exact Or.inr ⟨z, zs, rfl, hz, (Option.some.inj h).symm⟩
        · rw [if_neg hz] at h
          refine Or.inl ⟨(Option.some.inj h).symm, ?_⟩
          intro z' zs' hzz
          simp only [List.cons.injEq, true_and] at hzz
          rw [← hzz.1]
          simpa using hz
    · rw [dropArtifact_other hab] at h
      refine Or.inl ⟨(Option.some.inj h).symm, ?_⟩
      intro z zs hzz
      exfalso
      apply hab
      simp only [List.cons.injEq] at hzz
      exact ⟨hzz.1, hzz.2.1⟩

/-- A successful artifact strip returns a suffix of its input. -/
theorem dropArtifact_suffix {s t : List Char} (h : dropArtifact s = some t) :
    ∃ w, w ++ t = s := by
  rcases dropArtifact_some_cases h with ⟨hts, _⟩ | ⟨z, zs, hs, _, ht⟩
  · exact ⟨[], by simp [hts]⟩
  · exact ⟨['n', ' '], by rw [hs, ht]; rfl⟩

/-- When the last character is not whitespace (hence not a newline), the
trailing-separator strip removes at most that character. -/
theorem subTrailing_prefix {s : List Char} {e : Char} {t : List Char}
    (hr : s.reverse = e :: t) (he : isPySpace e = false) :
    subTrailing s = s ∨ subTrailing s ++ [e] = s := by
  simp only [subTrailing, hr]
  by_cases h1 : (e = ';' || e = ',') = true
  · rw [if_pos h1]
    right
    have hs : s = t.reverse ++ [e] := by
      have := congrArg List.reverse hr
      simpa using this
    rw [← hs]
  · rw [if_neg h1]
    have h2 : ¬ e = '\n' := by
      intro hh
      rw [hh] at he
      simp [isPySpace] at he
    rw [if_neg h2]
    left
    rfl

/-- Whether a string ends in a semicolon or comma. -/
def endsSemiComma (s : List Char) : Bool :=
  match s.reverse with
  | c :: _ => c = ';' || c = ','
  | [] => false

/-- The artifact strip is the identity on every normalizer output: the
output is a prefix of the artifact-stripped stage-1 string, whose
artifact (if any) was already removed, and uppercase initials or the
non-uppercase third character are preserved by taking prefixes. -/
theorem normItem_dropArtifact_fix {nl : Bool} {item c : List Char}
    (h : normItem nl item = some c) : dropArtifact c = some c := by
  unfold normItem at h
  cases hd : dropArtifact (if nl then replaceNl (pyStrip item) else pyStrip item) with
  | none => rw [hd] at h; cases h
  | some c2 =>
    rw [hd] at h
    simp only [Option.some.injEq] at h
    subst h
    cases c2 with
    | nil => rfl
    | cons e0 c2t =>
      -- the head of the artifact-stripped string is not whitespace
      have hc2head : isPySpace e0 = false := by
        rcases dropArtifact_some_cases hd with ⟨ht, _⟩ | ⟨z, zs, _, hz, htz⟩
        · exact stage1_head_false ht.symm
        · have : e0 = z := (List.cons.inj htz).1
          rw [this]
          exact isUpperA_not_space hz
      -- the last character of the artifact-stripped string is not whitespace
      obtain ⟨w, hw⟩ := dropArtifact_suffix hd
      obtain ⟨e1, t1, hrev⟩ :
          ∃ e1 t1, (e0 :: c2t).reverse = e1 :: t1 := by
        cases hx : (e0 :: c2t).reverse with
        | nil => simp at hx
        | cons e1 t1 => exact ⟨e1, t1, rfl⟩
      have hc2last : isPySpace e1 = false := by
        have hsr : (if nl then replaceNl (pyStrip item) else pyStrip item).reverse
            = e1 :: (t1 ++ w.reverse) := by
          rw [← hw, List.reverse_append, hrev]
          rfl
        exact stage1_last_false hsr
      -- the trailing strip removes at most the last character
      have hpre1 : ∃ u1, subTrailing (e0 :: c2t) ++ u1 = e0 :: c2t := by
        rcases subTrailing_prefix hrev hc2last with h1 | h1
        · exact ⟨[], by simp [h1]⟩
        · exact ⟨[e1], h1⟩
      -- the final strip keeps a prefix of the artifact-stripped string
      have hchain : pyStrip (subTrailing (e0 :: c2t)) = [] ∨
          ∃ v, pyStrip (subTrailing (e0 :: c2t)) ++ v = e0 :: c2t := by
        obtain ⟨u1, hu1⟩ := hpre1
        cases hX : subTrailing (e0 :: c2t) with
        | nil => exact Or.inl rfl
        | cons x0 xt =>
          right
          have hx0 : x0 = e0 := by
            rw [hX] at hu1
            exact (List.cons.inj hu1).1
          have hXdw : (subTrailing (e0 :: c2t)).dropWhile isPySpace
              = subTrailing (e0 :: c2t) := by
            rw [hX]
            exact dropWhile_of_head_false (hx0 ▸ hc2head)
          have hCs : pyStrip (subTrailing (e0 :: c2t))
              = stripRight (subTrailing (e0 :: c2t)) := by
            show stripRight ((subTrailing (e0 :: c2t)).dropWhile isPySpace)
                = stripRight (subTrailing (e0 :: c2t))
            rw [hXdw]
          obtain ⟨u2, _, hu2⟩ := stripRight_append (subTrailing (e0 :: c2t))
          refine ⟨u2 ++ u1, ?_⟩
          rw [← hX, hCs, ← List.append_assoc, hu2, hu1]
      -- final case analysis on the output's shape
      rcases hC : pyStrip (subTrailing (e0 :: c2t)) with _ | ⟨a, _ | ⟨b, rest⟩⟩
      · rfl
      · rfl
      · by_cases hab : a = 'n' ∧ b = ' '
        · obtain ⟨ha, hb⟩ := hab
          subst ha
          subst hb
          cases rest with
          | nil =>
            exfalso
            have hcr : (pyStrip (subTrailing (e0 :: c2t))).reverse = [' ', 'n'] := by
              rw [hC]
              rfl
            have := pyStrip_last_false hcr
            simp [isPySpace] at this
          | cons d ds =>
            rcases hchain with h1 | ⟨v, hv⟩
            · rw [hC] at h1; cases h1
            · rw [hC] at hv
              have hc2eq : e0 :: c2t = 'n' :: ' ' :: d :: (ds ++ v) := by
                rw [← hv]
                rfl
              rcases dropArtifact_some_cases hd with ⟨ht, hnone⟩ | ⟨z, zs, _, hz, htz⟩
              · have hupd : isUpperA d = false :=
                  hnone d (ds ++ v) (by rw [← ht]; exact hc2eq)
                have h2 : dropArtifact ('n' :: ' ' :: d :: ds)
                    = some (if isUpperA d then d :: ds
                            else 'n' :: ' ' :: d :: ds) := rfl
                rw [h2, hupd]
                simp
              · exfalso
                have hz' : z = 'n' := by
                  rw [hc2eq] at htz
                  exact ((List.cons.inj htz).1).symm
                rw [hz'] at hz
                exact absurd hz (by decide)
        · exact dropArtifact_other hab

/-- A normalizer output whose last character is neither `;` nor `,` is
unchanged by the trailing strip. -/
theorem subTrailing_of_normItem {nl : Bool} {item c : List Char}
    (h : normItem nl item = some c) (hend : endsSemiComma c = false) :
    subTrailing c = c := by
  cases hr : c.reverse with
  | nil => simp only [subTrailing, hr]
  | cons e t =>
    have hce : isPySpace e = false := by
      have := normItem_strip h
      exact pyStrip_last_false (by rw [this]; exact hr)
    simp only [subTrailing, hr]
    rw [if_neg ?_, if_neg ?_]
    · intro he
      rw [he] at hce
      simp [isPySpace] at hce
    · unfold endsSemiComma at hend
      rw [hr] at hend
      simpa using hend

/-- In the page variant the normalizer output contains no newline, so the
newline replacement is the identity on it. -/
theorem replaceNl_of_normItem {item c : List Char}
    (h : normItem true item = some c) : replaceNl c = c := by
  have hnl := normItem_no_nl h
  rw [hasNl, List.any_eq_false] at hnl
  unfold replaceNl
  have : ∀ a ∈ c, (fun x => if x = '\n' then ' ' else x) a = a := by
    intro a ha
    have h2 := hnl a ha
    simp only [decide_eq_true_eq] at h2
    show (if a = '\n' then ' ' else a) = a
    rw [if_neg h2]
  rw [List.map_congr_left this]
  simp

/-! ## Section-isolation helpers -/

/-- The section ends exactly at the first position after `PROMOTIONAL`
where a terminator matches. -/
theorem promoSection_eq_of_first (q : List Char → Bool) (text rest a b : List Char)
    (hrest : afterPromo text = some rest) (hab : a ++ b = rest) (hq : q b = true)
    (hfirst : ∀ k, k < a.length → q (rest.drop k) = false) :
    promoSection q text = some a := by
  have hmin : ∀ a' b', a' ++ b' = rest → a'.length < a.length → q b' = false := by
    intro a' b' hab' hlt
    have hb' : b' = rest.drop a'.length := by
      rw [← hab', List.drop_left]
    rw [hb']
    exact hfirst a'.length hlt
  have hs := splitAtFirst_eq_some hab hq hmin
  unfold promoSection
  rw [hrest]
  simp only [hs]

/-- If no terminator matches anywhere after `PROMOTIONAL`, the section
search fails. -/
theorem promoSection_none_of_noTerm (q : List Char → Bool) (text rest : List Char)
    (hrest : afterPromo text = some rest)
    (h : ∀ k, k ≤ rest.length → q (rest.drop k) = false) :
    promoSection q text = none := by
  have hnone : splitAtFirst q rest = none := by
    apply splitAtFirst_eq_none
    intro a b hab
    have hb : b = rest.drop a.length := by
      rw [← hab, List.drop_left]
    have hle : a.length ≤ rest.length := by
      rw [← hab]
      simp
    rw [hb]
    exact h a.length hle
  unfold promoSection
  rw [hrest]
  simp only [hnone]

/-- If `PROMOTIONAL` does not occur, the section search fails. -/
theorem promoSection_none_of_noPromo (q : List Char → Bool) (text : List Char)
    (h : afterPromo text = none) : promoSection q text = none := by
  unfold promoSection
  rw [h]

/-- Without a section, the extraction core returns the empty parents
list. -/
theorem extractParents_noSection (nl : Bool) (q : List Char → Bool)
    (deny : List (List Char)) (text : List Char)
    (h : promoSection q text = none) : extractParents nl q deny text = some [] := by
  unfold extractParents
  rw [h]

/-- A suffix rejected by the doc terminator set is also rejected by the
page terminator set (the page set is a subset). -/
theorem termAtPage_false_of_doc {s : List Char} (h : termAtDoc s = false) :
    termAtPage s = false := by
  unfold termAtDoc at h
  exact (Bool.or_eq_false_iff.mp h).1

/-! ## Concrete documents used by the claims -/

/-- A specification text listing three parent titles in one clause. -/
def promoThree : List Char :=
  "PROMOTIONAL Transfer as a Senior Clerk, Clerk Typist or Typist. SUFFOLK COUNTY".data

/-- The self-reference example of the specification. -/
def promoSelfRef : List Char :=
  "PROMOTIONAL: Appointment as a Suffolk County employee. NECESSARY SPECIAL REQUIREMENT...".data

/-- A text whose only terminator-like marker is `Full Performance`. -/
def promoFullPerf : List Char :=
  "PROMOTIONAL as a Senior Clerk Full Performance".data

/-- A text with a run of two newlines inside a parent title. -/
def promoNewlines : List Char :=
  "PROMOTIONAL as a Senior\n\nClerk. SUFFOLK COUNTY".data

/-- A text where `REVISION DATE` occurs before `SUFFOLK COUNTY`. -/
def promoTwoTerms : List Char :=
  "PROMOTIONAL promotion REVISION DATE junk SUFFOLK COUNTY".data

/-! ## The claims -/

/-- C1: for every input text, every parent title accepted into the
extraction result by either extractor variant has length strictly
greater than 3 after trimming and does not case-insensitively contain
any denylisted token ("SUFFOLK", "THREE", "TWO" for the page variant;
additionally "ONE", "YEAR" for the document variant). -/
theorem claim_c1 (text : List Char) (ps : List (List Char)) (p : List Char) :
    (extractPromotionalText text = some ps → p ∈ ps →
      3 < (pyStrip p).length ∧
        ∀ tok ∈ denyPage, isSubLit tok (upperList p) = false) ∧
    (extractSpecParents text = some ps → p ∈ ps →
      3 < (pyStrip p).length ∧
        ∀ tok ∈ denyDoc, isSubLit tok (upperList p) = false) := by
  constructor
  · intro h hp
    unfold extractPromotionalText at h
    obtain ⟨item, hn, ha⟩ := mem_extractParents h hp
    obtain ⟨hlen, hdeny⟩ := acceptWith_spec ha
    rw [normItem_strip hn]
    exact ⟨hlen, hdeny⟩
  · intro h hp
    unfold extractSpecParents at h
    obtain ⟨item, hn, ha⟩ := mem_extractParents h hp
    obtain ⟨hlen, hdeny⟩ := acceptWith_spec ha
    rw [normItem_strip hn]
    exact ⟨hlen, hdeny⟩

theorem claim_c1_witness :
    3 < (pyStrip ("Senior Clerk".data)).length ∧
      isSubLit ("SUFFOLK".data) (upperList ("Senior Clerk".data)) = false := by
  have h := (claim_c1 promoThree
      ["Senior Clerk".data, "Clerk Typist".data, "Typist".data]
      ("Senior Clerk".data)).1 (by decide) (by decide)
  exact ⟨h.1, h.2 ("SUFFOLK".data) (by decide)⟩

/-- C2: when `PROMOTIONAL` is followed by two or more terminator
occurrences, the section ends at the occurrence that comes first in the
text (the leftmost one), not at the terminator listed first in the
alternation: under the hypothesis that `a1` is the prefix up to the
first-occurring terminator (`hfirst`), and that a second terminator
occurrence exists further right (`a2`, `b2`), the section is exactly
`a1`. -/
theorem claim_c2 (q : List Char → Bool) (text rest a1 b1 a2 b2 : List Char)
    (hrest : afterPromo text = some rest)
    (h1 : a1 ++ b1 = rest) (t1 : q b1 = true)
    (_h2 : a2 ++ b2 = rest) (_t2 : q b2 = true)
    (_h12 : a1.length < a2.length)
    (hfirst : ∀ k, k < a1.length → q (rest.drop k) = false) :
    promoSection q text = some a1 :=
  promoSection_eq_of_first q text rest a1 b1 hrest h1 t1 hfirst

theorem claim_c2_witness :
    promoSection termAtPage promoTwoTerms = some (" promotion ".data) :=
  claim_c2 termAtPage promoTwoTerms
    (" promotion REVISION DATE junk SUFFOLK COUNTY".data)
    (" promotion ".data) ("REVISION DATE junk SUFFOLK COUNTY".data)
    (" promotion REVISION DATE junk ".data) ("SUFFOLK COUNTY".data)
    (by decide) (by decide) (by decide) (by decide) (by decide) (by decide)
    (by decide)

/-- C3 counterexample: the claim says both variants treat
`Full Performance` as a terminator, but the page variant's alternation
(`scrape_specs.py` line 21) omits it: on a text whose only
terminator-like marker after `PROMOTIONAL` is `Full Performance`, the
page variant finds no section at all (and returns no parents), while the
doc variant ends the section right before `Full Performance`. -/
theorem claim_c3_counterexample :
    promoSection termAtPage promoFullPerf = none ∧
    promoSection termAtDoc promoFullPerf = some (" as a Senior Clerk ".data) ∧
    extractPromotionalText promoFullPerf = some [] ∧
    extractSpecParents promoFullPerf = some ["Senior Clerk".data] := by
  decide

/-- C3 as amended: the doc variant's terminator set is the page set plus
`Full Performance`; in the doc variant only, for every text where
`Full Performance` is the first terminator after `PROMOTIONAL`, the
section ends there. -/
theorem claim_c3 :
    (∀ s, termAtDoc s = (termAtPage s || ciStarts "Full Performance".data s)) ∧
    ∀ text rest a b, afterPromo text = some rest → a ++ b = rest →
      ciStarts "Full Performance".data b = true →
      (∀ k, k < a.length → termAtDoc (rest.drop k) = false) →
      promoSection termAtDoc text = some a := by
  constructor
  · intro s
    rfl
  · intro text rest a b hrest hab hfp hfirst
    refine promoSection_eq_of_first termAtDoc text rest a b hrest hab ?_ hfirst
    unfold termAtDoc
    rw [hfp]
    simp

theorem claim_c3_witness :
    promoSection termAtDoc promoFullPerf = some (" as a Senior Clerk ".data) :=
  claim_c3.2 promoFullPerf (" as a Senior Clerk Full Performance".data)
    (" as a Senior Clerk ".data) ("Full Performance".data)
    (by decide) (by decide) (by decide) (by decide)

/-- C4: when `PROMOTIONAL` does not occur, or no terminator (of the doc
set, which contains the page set) occurs after it, both extractor
variants return an empty parent set — a valid terminal state, not an
error. -/
theorem claim_c4 (text : List Char)
    (h : afterPromo text = none ∨
      ∃ rest, afterPromo text = some rest ∧
        ∀ k, k ≤ rest.length → termAtDoc (rest.drop k) = false) :
    extractPromotionalText text = some [] ∧ extractSpecParents text = some [] := by
  have hpage : promoSection termAtPage text = none := by
    rcases h with h | ⟨rest, hrest, hk⟩
    · exact promoSection_none_of_noPromo termAtPage text h
    · refine promoSection_none_of_noTerm termAtPage text rest hrest ?_
      intro k hkle
      exact termAtPage_false_of_doc (hk k hkle)
  have hdoc : promoSection termAtDoc text = none := by
    rcases h with h | ⟨rest, hrest, hk⟩
    · exact promoSection_none_of_noPromo termAtDoc text h
    · exact promoSection_none_of_noTerm termAtDoc text rest hrest hk
  exact ⟨extractParents_noSection true termAtPage denyPage text hpage,
    extractParents_noSection false termAtDoc denyDoc text hdoc⟩

theorem claim_c4_witness :
    extractPromotionalText ("PROMOTIONAL nothing follows".data) = some [] ∧
    extractSpecParents ("PROMOTIONAL nothing follows".data) = some [] :=
  claim_c4 ("PROMOTIONAL nothing follows".data)
    (Or.inr ⟨" nothing follows".data, by decide, by decide⟩)

/-- C5: on an input whose promotional section contains the clause
`as a Senior Clerk, Clerk Typist or Typist.`, the chunk stops at the
final period, the splitter cuts at the comma and at the standalone `or`,
each piece is normalized independently, and both variants extract
exactly the three parent titles. -/
theorem claim_c5 :
    chunkOf ("Senior Clerk, Clerk Typist or Typist.".data)
      = "Senior Clerk, Clerk Typist or Typist".data ∧
    splitItems ("Senior Clerk, Clerk Typist or Typist".data)
      = ["Senior Clerk".data, " Clerk Typist ".data, " Typist".data] ∧
    (splitItems ("Senior Clerk, Clerk Typist or Typist".data)).map (normItem false)
      = [some ("Senior Clerk".data), some ("Clerk Typist".data), some ("Typist".data)] ∧
    extractPromotionalText promoThree
      = some ["Senior Clerk".data, "Clerk Typist".data, "Typist".data] ∧
    extractSpecParents promoThree
      = some ["Senior Clerk".data, "Clerk Typist".data, "Typist".data] := by
  decide

/-- C6: on the self-reference input both variants return an empty parent
set, and a candidate clause that starts (case-insensitively, after
trimming) with `SUFFOLK COUNTY` or `NON-COUNTY` triggers the discard
pre-filter.  (On this concrete input the emptiness in fact arises one
step earlier: `SUFFOLK COUNTY` is also a terminator, so the isolated
section already ends before the words `Suffolk County` and the candidate
text is empty; the pre-filter conjunct shows the discard rule the claim
describes.) -/
theorem claim_c6 :
    extractPromotionalText promoSelfRef = some [] ∧
    extractSpecParents promoSelfRef = some [] ∧
    selfRefReject (pyStrip (" Suffolk County employee".data)) = true ∧
    selfRefReject (pyStrip ("non-county service".data)) = true := by
  decide

/-- C7 counterexample: the normalizer strips only one trailing
semicolon/comma, so it is not idempotent on its own outputs:
normalizing `"Clerk;;"` yields `"Clerk;"` (an output of one
application), and normalizing that yields the different string
`"Clerk"`; both variants behave alike. -/
theorem claim_c7_counterexample :
    normItem false ("Clerk;;".data) = some ("Clerk;".data) ∧
    normItem false ("Clerk;".data) = some ("Clerk".data) ∧
    normItem true ("Clerk;;".data) = some ("Clerk;".data) ∧
    normItem true ("Clerk;".data) = some ("Clerk".data) ∧
    (("Clerk;".data == "Clerk".data) = false) := by
  decide

/-- C7 as amended: the normalizer is idempotent on every output that
does not end in a semicolon or comma (an output can end in one only when
the input carried at least two trailing separators); on such outputs a
second application changes nothing. -/
theorem claim_c7 (nl : Bool) (s c : List Char)
    (h : normItem nl s = some c) (hend : endsSemiComma c = false) :
    normItem nl c = some c := by
  have h1 := normItem_strip h
  have h3 := normItem_dropArtifact_fix h
  have h4 := subTrailing_of_normItem h hend
  have hstage : (if nl then replaceNl (pyStrip c) else pyStrip c) = c := by
    cases nl with
    | false => simpa using h1
    | true =>
      simp only [if_true]
      rw [h1]
      exact replaceNl_of_normItem h
  unfold normItem
  rw [hstage, h3]
  show some (pyStrip (subTrailing c)) = some c
  rw [h4, h1]

theorem claim_c7_witness :
    normItem false ("Senior Clerk".data) = some ("Senior Clerk".data) :=
  claim_c7 false ("Senior Clerk;".data) ("Senior Clerk".data) (by decide) (by decide)

/-- C8 counterexample: the claim says both variants collapse runs of
embedded newlines to single spaces.  The doc variant never replaces
newlines (`clean = item.strip()` only), so its accepted title here
contains the newlines; the page variant replaces each newline with one
space, so a run of two newlines becomes two spaces, not one. -/
theorem claim_c8_counterexample :
    extractSpecParents promoNewlines = some ["Senior\n\nClerk".data] ∧
    hasNl ("Senior\n\nClerk".data) = true ∧
    extractPromotionalText promoNewlines = some ["Senior  Clerk".data] ∧
    (("Senior  Clerk".data == "Senior Clerk".data) = false) := by
  decide

/-- C8 as amended: in the page variant every embedded newline is
replaced by one space before any further processing, so no accepted
page-variant parent title contains a newline (the doc variant leaves
newlines in place, as the counterexample shows). -/
theorem claim_c8 (text : List Char) (ps : List (List Char)) (p : List Char)
    (h : extractPromotionalText text = some ps) (hp : p ∈ ps) :
    hasNl p = false := by
  unfold extractPromotionalText at h
  obtain ⟨item, hn, _⟩ := mem_extractParents h hp
  exact normItem_no_nl hn

theorem claim_c8_witness : hasNl ("Senior  Clerk".data) = false :=
  claim_c8 promoNewlines ["Senior  Clerk".data] ("Senior  Clerk".data)
    (by decide) (by decide)

/-- C9: each extractor core is a pure function of the raw text, so two
runs on the same text — each producing some duplicate-free reordering of
the parents accumulator, as `list(set(parents))` does — agree on
membership. -/
theorem claim_c9 (text : List Char) (o1 o2 : List (List Char)) (p : List Char) :
    (runOutput extractPromotionalText text o1 →
      runOutput extractPromotionalText text o2 → (p ∈ o1 ↔ p ∈ o2)) ∧
    (runOutput extractSpecParents text o1 →
      runOutput extractSpecParents text o2 → (p ∈ o1 ↔ p ∈ o2)) := by
  refine ⟨?_, ?_⟩ <;>
    · rintro ⟨ps1, hf1, -, hm1⟩ ⟨ps2, hf2, -, hm2⟩
      rw [hf1] at hf2
      cases Option.some.inj hf2
      exact (hm1 p).trans ((hm2 p).symm)

theorem claim_c9_witness :
    ("Senior Clerk".data
        ∈ (["Senior Clerk".data, "Clerk Typist".data, "Typist".data] : List (List Char))) ↔
    ("Senior Clerk".data
        ∈ (["Senior Clerk".data, "Clerk Typist".data, "Typist".data] : List (List Char))) := by
  have hrun : runOutput extractPromotionalText promoThree
      ["Senior Clerk".data, "Clerk Typist".data, "Typist".data] :=
    ⟨["Senior Clerk".data, "Clerk Typist".data, "Typist".data],
      by decide, by decide, fun q => Iff.rfl⟩
  exact (claim_c9 promoThree
    ["Senior Clerk".data, "Clerk Typist".data, "Typist".data]
    ["Senior Clerk".data, "Clerk Typist".data, "Typist".data]
    ("Senior Clerk".data)).1 hrun hrun

/-- C10: the character access `clean[2]` in the artifact guard is safe
for all inputs: a stripped item that starts with the two characters
`"n "` cannot be exactly `"n "` (a stripped string cannot end in a
space), so it has at least three characters; consequently the normalizer
never raises (`none` models the `IndexError`). -/
theorem claim_c10 (nl : Bool) (item : List Char) :
    ((pyStrip item == ['n', ' ']) = false) ∧ (normItem nl item).isSome = true := by
  constructor
  · rw [beq_eq_false_iff_ne]
    intro hcon
    have hr : (pyStrip item).reverse = [' ', 'n'] := by rw [hcon]; rfl
    have hlast := pyStrip_last_false hr
    simp [isPySpace] at hlast
  · exact normItem_isSome nl item

theorem claim_c10_witness :
    ((pyStrip ("n A".data) == ['n', ' ']) = false) ∧
      (normItem false ("n A".data)).isSome = true :=
  claim_c10 false ("n A".data)

end CivilBuddy
